import Mathlib

/-!
Overview: Verification of the libpussy bitmap page allocator

Shallow embedding of `src/allocator_pet.c` (bitmap sub-allocator, allocator
facade) and of the debug ("bubblewrap") adaptor, together with theorems
settling the frozen claims C1..C10.

Modelling conventions:
* A machine word (`Word`, 64-bit on the default build) is represented by the
  list of its bits, least significant first; the page bitmap is the flat
  `List Bool` of its `units_per_page` bits (bit `i` = unit `i` in use).
  Under this representation `w >> k` is `List.drop k`, `~w` is `List.map not`,
  `w != 0` is `w.any id`, and `__builtin_ctzl w` (for `w != 0`) is the number
  of leading `false` entries.
* `unsigned` values are `Nat`; where the C code can wrap (the `n -= length`
  budget updates of `find_longest_free_block`, the `new_nbytes - old_nbytes`
  of the debug adaptor) the subtraction is taken explicitly mod `2^32`
  (`wsub32`), everywhere else the quantities are provably small.
* Loops whose termination is itself under scrutiny (claim C10) are given an
  explicit fuel and return `Option`/`Except`; `none` models non-termination.
* Pages are identified by ids; an address is a pair (page id, byte offset
  inside the mapping).  Dereferencing a page pointer that is not a live
  bitmap page is undefined behaviour in C and maps to the `Fault.ub` outcome.
-/

set_option autoImplicit false

set_option maxRecDepth 100000000

set_option maxHeartbeats 1600000

deriving instance DecidableEq for Except

namespace Pussy

/-- Constant `UNIT_SIZE` (allocator_pet.c line 19). -/
def UNIT_SIZE : Nat := 16

/-- Constant `WORD_WIDTH` for the default 64-bit build (allocator_pet.c lines 44-46). -/
def WORD_WIDTH : Nat := 64

/-- Constant `sys_page_size` for the standard 4 KiB page (allocator.h, sysconf). -/
def sysPageSize : Nat := 4096

/-- Constant `units_per_page = sys_page_size / UNIT_SIZE` (`_init`, line 741). -/
def unitsPerPage : Nat := sysPageSize / UNIT_SIZE

/-- Constant `bm_page_header_size_in_units`: `(offsetof(BmPageHeader, bitmap) +
units_per_page / 8 + UNIT_SIZE - 1) / UNIT_SIZE` with three 8-byte pointers
before the bitmap (`_init`, lines 743-747): `(24 + 32 + 15) / 16 = 4`. -/
def headerUnits : Nat := (24 + unitsPerPage / 8 + UNIT_SIZE - 1) / UNIT_SIZE

/-- Constant `max_data_units = units_per_page - bm_page_header_size_in_units`
(`_init`, line 749). -/
def maxDataUnits : Nat := unitsPerPage - headerUnits

/-- Constant `UINT_MAX`. -/
def UINT_MAX : Nat := 4294967295

/-- 32-bit wrapping subtraction, the semantics of `a - b` on C `unsigned`. -/
def wsub32 (a b : Nat) : Nat := (a % 4294967296 + (4294967296 - b % 4294967296)) % 4294967296

/-- Function `bytes_to_units`: `align_unsigned(nbytes, UNIT_SIZE) / UNIT_SIZE`
(lines 234-237), i.e. `ceil(nbytes / 16)`. -/
def bytesToUnits (nbytes : Nat) : Nat := (nbytes + (UNIT_SIZE - 1)) / UNIT_SIZE

/-- Function `align_unsigned_to_page` (allocator.h): round up to a page multiple. -/
def alignToPage (n : Nat) : Nat := (n + (sysPageSize - 1)) / sysPageSize * sysPageSize

/-- Bit `i` of a bitmap (out-of-range reads the permanent 0 padding;
all in-range uses are guarded by the C loop bounds). -/
def bit (bm : List Bool) (i : Nat) : Bool := bm.getD i false

/-- Intrinsic `__builtin_ctzl` on the bit-list view of a word: the number of leading
entries equal to `v` (`v = false` gives trailing-zero count of the word,
`v = true` the trailing-zero count of its complement). -/
def countLeading (v : Bool) : List Bool → Nat
  | [] => 0
  | b :: rest => if b = v then countLeading v rest + 1 else 0

/-- The whole-word loop shared verbatim by `count_zero_bits` and
`count_nonzero_bits` (lines 325-334 and 363-372; the source comment on
`count_nonzero_bits` notes the code is identical up to inversion, captured
here by the parameter `v`): starting at the word-aligned bit `offset` with
running `count`, scan words while `offset < units_per_page && count < limit`;
an all-`v` word adds `WORD_WIDTH`, otherwise add the trailing count of the
transition word and stop. -/
def bitRunLoop (v : Bool) (bm : List Bool) (limit : Nat) : Nat → Nat → Nat → Nat
  | 0, _, count => count
  | fuel + 1, offset, count =>
    if offset < bm.length ∧ count < limit then
      let w := (bm.drop offset).take WORD_WIDTH
      if w.any (fun b => b != v) then count + countLeading v w
      else bitRunLoop v bm limit fuel (offset + WORD_WIDTH) (count + WORD_WIDTH)
    else count

/-- Fuel that always suffices for `bitRunLoop` over `bm` (the loop advances
one word per iteration and stops at `bm.length`); the fuel-out case of
`bitRunLoop` is unreachable with it. -/
def wordFuel (bm : List Bool) : Nat := bm.length / WORD_WIDTH + 1

/-- The shared body of `count_zero_bits` (lines 302-336) and
`count_nonzero_bits` (lines 338-374): handle the partial first word
(`bit_index = offset % WORD_WIDTH`; shift by `bit_index`, i.e. drop the low
bits; if a non-`v` bit remains in this word return its trailing count,
else start the word loop at the next boundary with `WORD_WIDTH - bit_index`
bits already counted). -/
def bitRun (v : Bool) (bm : List Bool) (offset limit : Nat) : Nat :=
  let bitIndex := offset % WORD_WIDTH
  if bitIndex ≠ 0 then
    let w := (bm.drop offset).take (WORD_WIDTH - bitIndex)
    if w.any (fun b => b != v) then countLeading v w
    else bitRunLoop v bm limit (wordFuel bm) (offset + (WORD_WIDTH - bitIndex)) (WORD_WIDTH - bitIndex)
  else bitRunLoop v bm limit (wordFuel bm) offset 0

/-- Function `count_zero_bits(bm_page, offset, limit)` (lines 302-336). -/
def count_zero_bits (bm : List Bool) (offset limit : Nat) : Nat :=
  bitRun false bm offset limit

/-- Function `count_nonzero_bits(bm_page, offset, limit)` (lines 338-374). -/
def count_nonzero_bits (bm : List Bool) (offset limit : Nat) : Nat :=
  bitRun true bm offset limit

/-- Write `n` copies of `v` into the bitmap starting at bit `p`: the effect
of one masked word store (`*ptr |= bitmask` / `*ptr &= ~bitmask`) or of a
full-word store, on the bit-list view. -/
def wr (v : Bool) : List Bool → Nat → Nat → List Bool
  | [], _, _ => []
  | l, _, 0 => l
  | b :: rest, p + 1, n => b :: wr v rest p n
  | _ :: rest, 0, n + 1 => v :: wr v rest 0 n

/-- Whole-word phase plus unaligned tail shared by `set_bits` (lines
399-408) and `clear_bits` (lines 436-445): store full words while
`length >= WORD_WIDTH`, then mask-edit the remaining `length` bits. -/
def bitsWords (v : Bool) : Nat → List Bool → Nat → Nat → List Bool
  | 0, bm, _, _ => bm
  | fuel + 1, bm, offset, length =>
    if length ≥ WORD_WIDTH then
      bitsWords v fuel (wr v bm offset WORD_WIDTH) (offset + WORD_WIDTH) (length - WORD_WIDTH)
    else if length ≠ 0 then wr v bm offset length else bm

/-- The shared structure of `set_bits` (lines 376-409) and `clear_bits`
(lines 411-446): mask-edit the partial first word up to the next word
boundary (at most `length` bits), then the word phase. -/
def bitsRange (v : Bool) (bm : List Bool) (offset length : Nat) : List Bool :=
  let bitIndex := offset % WORD_WIDTH
  if bitIndex ≠ 0 then
    let numBits := if length ≤ WORD_WIDTH - bitIndex then length else WORD_WIDTH - bitIndex
    bitsWords v (length / WORD_WIDTH + 1) (wr v bm offset numBits) (offset + numBits) (length - numBits)
  else bitsWords v (length / WORD_WIDTH + 1) bm offset length

/-- Function `set_bits(bm_page, offset, length)` (lines 376-409). -/
def set_bits (bm : List Bool) (offset length : Nat) : List Bool :=
  bitsRange true bm offset length

/-- Function `clear_bits(bm_page, offset, length)` (lines 411-446). -/
def clear_bits (bm : List Bool) (offset length : Nat) : List Bool :=
  bitsRange false bm offset length

/-- The `while (offset < units_per_page)` loop of `find_free_block`
(lines 460-469), with explicit fuel; `none` models non-termination of the C
loop (claim C10 proves the chosen fuel never runs out). -/
def ffbLoop (bm : List Bool) (blockSize : Nat) : Nat → Nat → Option Nat
  | _, 0 => none
  | offset, fuel + 1 =>
    if offset < bm.length then
      let length := count_zero_bits bm offset blockSize
      if length ≥ blockSize then some offset
      else
        ffbLoop bm blockSize
          (offset + length + count_nonzero_bits bm (offset + length) UINT_MAX) fuel
    else some 0

/-- Function `find_free_block(bm_page, block_size)` (lines 452-472): first offset
`≥ header_units` of `block_size` consecutive zero bits, 0 if none. -/
def find_free_block (bm : List Bool) (blockSize : Nat) : Option Nat :=
  ffbLoop bm blockSize headerUnits (bm.length + 1)

/-- The `while (n)` loop of `find_longest_free_block` (lines 482-493) with
explicit fuel; the budget `n` is a C `unsigned`, so both `n -= length`
updates wrap mod `2^32` (`wsub32`).  `none` models non-termination. -/
def flfbLoop (bm : List Bool) : Nat → Nat → Nat → Nat → Option Nat
  | _, _, _, 0 => none
  | offset, n, lfb, fuel + 1 =>
    if n ≠ 0 then
      let length := count_zero_bits bm offset n
      let lfb := if length > lfb then length else lfb
      let offset := offset + length
      let n := wsub32 n length
      let length2 := count_nonzero_bits bm offset n
      flfbLoop bm (offset + length2) (wsub32 n length2) lfb fuel
    else some lfb

/-- Function `find_longest_free_block(bm_page)` (lines 474-496): scan the data area
(`offset = header_units`, budget `n = max_data_units`) tracking the longest
zero run. -/
def find_longest_free_block (bm : List Bool) : Option Nat :=
  flfbLoop bm headerUnits maxDataUnits 0 (maxDataUnits + 1)

/-!
Section: `cleanse` (lines 108-146)

Byte memory is a function from byte offset (relative to the `addr` argument)
to byte value.  A zero word store at byte offset `p` clears the 8 bytes
`p..p+7`, which is the composition of 8 single-byte clears, so both the
byte loops and the word loop of `cleanse` reduce to `zbytes`.
-/

/-- A run of `n` single zero-byte stores starting at byte `pos`
(the `*byteptr++ = 0` loops of `cleanse`). -/
def zbytes (mem : Nat → Nat) (pos : Nat) : Nat → (Nat → Nat)
  | 0 => mem
  | n + 1 => zbytes (fun i => if i = pos then 0 else mem i) (pos + 1) n

/-- The word loop of `cleanse` (lines 131-137: store zero words while
`length >= sizeof(Word)`) followed by the trailing byte loop
(lines 138-145). -/
def cleanseWords (mem : Nat → Nat) : Nat → Nat → Nat → (Nat → Nat)
  | 0, _, _ => mem
  | fuel + 1, pos, length =>
    if length ≥ 8 then cleanseWords (zbytes mem pos 8) fuel (pos + 8) (length - 8)
    else zbytes mem pos length

/-- Function `cleanse(addr, start, end)` (lines 108-146): zero the leading bytes up
to the next word boundary (`nbytes = sizeof(Word) - (start & 7)`, capped at
`length`), then whole words, then the remaining bytes. -/
def cleanse (mem : Nat → Nat) (start stop : Nat) : Nat → Nat :=
  let length := stop - start
  let nb0 := start % 8
  if nb0 ≠ 0 then
    let nbytes := if 8 - nb0 > length then length else 8 - nb0
    cleanseWords (zbytes mem start nbytes) (length / 8 + 1) (start + nbytes) (length - nbytes)
  else cleanseWords mem (length / 8 + 1) start length

/-!
Section: Superblock and page-list state

`BmPageHeader` (lines 243-256): `list` is the superblock slot the page
believes it is linked in (`BmPageHeader**`, always `superblock + lfb`),
`next`/`prev` the circular list neighbours, plus the bitmap.  Pages are
named by ids; an address is (page id, byte offset inside the mapping), so
`addr` is page aligned iff its offset is 0 and `bm_page_from_addr` is the
first projection.  The build modelled is the default (non-`DEBUG`) one:
`delete_from_list` leaves the stale `list`/`next`/`prev` fields behind.
-/

/-- In-memory header of one bitmap page. -/
structure PageRec where
  list : Option Nat
  next : Nat
  prev : Nat
  bitmap : List Bool
deriving DecidableEq, Repr

/-- Fatal outcomes: `abrt` models `abort()` after a diagnostic, `ub` models
undefined behaviour (dereferencing a pointer that is not a live bitmap
page header). -/
inductive Fault where
  | ub : Fault
  | abrt : Fault
deriving DecidableEq, Repr

/-- An address: (mapping id, byte offset within the mapping). -/
abbrev Addr := Nat × Nat

/-- Externally visible memory effects of an operation, in program order. -/
inductive Eff where
  | munmapE (a : Addr) (size : Nat)
  | mremapE (a : Addr) (oldNbytes newNbytes : Nat)
  | copyE (dst src : Addr) (n : Nat)
  | cleanseE (a : Addr) (start stop : Nat)
deriving DecidableEq, Repr

/-- Allocator state: live bitmap pages (id, header), the superblock slot
array, a fresh-id counter for `mmap`, and the two counters. -/
structure St where
  pages : List (Nat × PageRec)
  sb : List (Option Nat)
  nextId : Nat
  numBmPages : Nat
  blocksAllocated : Nat
deriving DecidableEq, Repr

/-- Read a page header through its pointer; `none` = not a live bitmap page. -/
def lookupPage (s : St) (p : Nat) : Option PageRec :=
  (s.pages.find? (fun e => e.1 == p)).map (fun e => e.2)

/-- Store a page header through its pointer. -/
def updatePage (s : St) (p : Nat) (r : PageRec) : St :=
  { s with pages := s.pages.map (fun e => if e.1 = p then (p, r) else e) }

/-- Read superblock slot `k`. -/
def sbGet (s : St) (k : Nat) : Option Nat := s.sb.getD k none

/-- Write superblock slot `k`. -/
def sbSet (s : St) (k : Nat) (v : Option Nat) : St :=
  { s with sb := s.sb.set k v }

/-- Function `delete_from_list(bm_page)` (lines 525-554), non-`DEBUG` build: if
`next == prev` treat the page as the last of its list and empty the slot;
otherwise redirect the slot head if it was this page and rewire
`next->prev` and `prev->next`.  Every pointer dereference of a non-live
page is `Fault.ub`. -/
def delete_from_list (s : St) (p : Nat) : Except Fault St :=
  match lookupPage s p with
  | none => Except.error Fault.ub
  | some rec =>
    match rec.list with
    | none => Except.error Fault.ub
    | some slot =>
      if rec.next = rec.prev then
        Except.ok (sbSet s slot none)
      else
        let s1 := if sbGet s slot = some p then sbSet s slot (some rec.next) else s
        match lookupPage s1 rec.next with
        | none => Except.error Fault.ub
        | some nrec =>
          let s2 := updatePage s1 rec.next { nrec with prev := rec.prev }
          match lookupPage s2 rec.prev with
          | none => Except.error Fault.ub
          | some prec =>
            Except.ok (updatePage s2 rec.prev { prec with next := rec.next })

/-- Function `grab_superblock_page` (lines 556-562): lock, unlink, unlock. -/
def grab_superblock_page (s : St) (p : Nat) : Except Fault St :=
  delete_from_list s p

/-- Function `add_to_superblock_entry(bm_page, lfb)` (lines 498-515): append at the
tail of `superblock[lfb]` (before the head), or start a singleton list;
finally set `bm_page->list`. -/
def add_to_superblock_entry (s : St) (p : Nat) (lfb : Nat) : Except Fault St :=
  match sbGet s lfb with
  | some first =>
    match lookupPage s first, lookupPage s p with
    | some frec, some prec0 =>
      let s1 := updatePage s p { prec0 with prev := frec.prev, next := first }
      match lookupPage s1 frec.prev with
      | none => Except.error Fault.ub
      | some fprec =>
        let s2 := updatePage s1 frec.prev { fprec with next := p }
        match lookupPage s2 first, lookupPage s2 p with
        | some frec2, some _ =>
          let s3 := updatePage s2 first { frec2 with prev := p }
          match lookupPage s3 p with
          | none => Except.error Fault.ub
          | some prec3 => Except.ok (updatePage s3 p { prec3 with list := some lfb })
        | _, _ => Except.error Fault.ub
    | _, _ => Except.error Fault.ub
  | none =>
    match lookupPage s p with
    | none => Except.error Fault.ub
    | some prec =>
      let s1 := updatePage s p { prec with next := p, prev := p, list := some lfb }
      Except.ok (sbSet s1 lfb (some p))

/-- Function `add_to_superblock(bm_page)` (lines 517-523): insert at the bucket of
the recomputed longest free block. -/
def add_to_superblock (s : St) (p : Nat) : Except Fault St :=
  match lookupPage s p with
  | none => Except.error Fault.ub
  | some rec =>
    match find_longest_free_block rec.bitmap with
    | none => Except.error Fault.ub
    | some lfb => add_to_superblock_entry s p lfb

/-- The bucket scan of `find_available_page` (lines 606-615): first
non-empty slot in `num_units .. max_data_units`. -/
def favpScan (s : St) : Nat → Nat → Option Nat
  | _, 0 => none
  | lfb, fuel + 1 =>
    if lfb ≤ maxDataUnits then
      match sbGet s lfb with
      | some p => some p
      | none => favpScan s (lfb + 1) fuel
    else none

/-- Function `find_available_page(num_units)` (lines 594-618): scan and unlink. -/
def find_available_page (s : St) (numUnits : Nat) : Except Fault (Option Nat × St) :=
  match favpScan s numUnits (maxDataUnits + 1 - numUnits) with
  | none => Except.ok (none, s)
  | some p =>
    match delete_from_list s p with
    | Except.error f => Except.error f
    | Except.ok s1 => Except.ok (some p, s1)

/-- The `out:` epilogue of `bm_allocate` (lines 663-672): bump
`blocks_allocated` and clean the user bytes on request. -/
def bmFinish (a : Addr) (s : St) (clean : Bool) (numUnits : Nat) :
    Except Fault (Option Addr × St × List Eff) :=
  Except.ok (some a, { s with blocksAllocated := s.blocksAllocated + 1 },
    if clean then [Eff.cleanseE a 0 (numUnits * UNIT_SIZE)] else [])

/-- Function `bm_allocate(num_units, clean)` (lines 620-673): take a page from the
superblock and carve the block out of it (aborting if `find_free_block`
returns the 0 sentinel), or map a fresh zero page, mark header plus block,
and file it under `max_data_units - num_units`.  The model `mmap` always
succeeds (out-of-memory is an environment condition outside the model). -/
def bm_allocate (s : St) (numUnits : Nat) (clean : Bool) :
    Except Fault (Option Addr × St × List Eff) :=
  match find_available_page s numUnits with
  | Except.error f => Except.error f
  | Except.ok (some p, s1) =>
    match lookupPage s1 p with
    | none => Except.error Fault.ub
    | some rec =>
      match find_free_block rec.bitmap numUnits with
      | none => Except.error Fault.ub
      | some 0 => Except.error Fault.abrt
      | some offset =>
        let s2 := updatePage s1 p { rec with bitmap := set_bits rec.bitmap offset numUnits }
        match add_to_superblock s2 p with
        | Except.error f => Except.error f
        | Except.ok s3 => bmFinish (p, offset * UNIT_SIZE) s3 clean numUnits
  | Except.ok (none, s1) =>
    let pid := s1.nextId
    let bmp := set_bits (List.replicate unitsPerPage false) 0 (headerUnits + numUnits)
    let s2 : St :=
      { s1 with
        nextId := pid + 1
        pages := s1.pages ++ [(pid, { list := none, next := 0, prev := 0, bitmap := bmp })]
        numBmPages := s1.numBmPages + 1 }
    match add_to_superblock_entry s2 pid (maxDataUnits - numUnits) with
    | Except.error f => Except.error f
    | Except.ok s3 => bmFinish (pid, headerUnits * UNIT_SIZE) s3 clean numUnits

/-- Function `bm_shrink(bm_page, offset, old_num_units, new_num_units)`
(lines 675-690): grab, clear the tail, reinsert. -/
def bm_shrink (s : St) (p : Nat) (offset oldNumUnits newNumUnits : Nat) :
    Except Fault (Unit × St × List Eff) :=
  match grab_superblock_page s p with
  | Except.error f => Except.error f
  | Except.ok s1 =>
    match lookupPage s1 p with
    | none => Except.error Fault.ub
    | some rec =>
      let s2 := updatePage s1 p
        { rec with bitmap := clear_bits rec.bitmap (offset + newNumUnits) (oldNumUnits - newNumUnits) }
      match add_to_superblock s2 p with
      | Except.error f => Except.error f
      | Except.ok s3 => Except.ok ((), s3, [])

/-- Function `bm_grow(bm_page, offset, old_num_units, new_num_units)`
(lines 692-709): grab, check the zero run after the block; on failure
return false with the page left detached (the C code only unlocks the
already-unlocked mutex); on success set the bits and reinsert. -/
def bm_grow (s : St) (p : Nat) (offset oldNumUnits newNumUnits : Nat) :
    Except Fault (Bool × St × List Eff) :=
  match grab_superblock_page s p with
  | Except.error f => Except.error f
  | Except.ok s1 =>
    match lookupPage s1 p with
    | none => Except.error Fault.ub
    | some rec =>
      let increment := newNumUnits - oldNumUnits
      if count_zero_bits rec.bitmap (offset + oldNumUnits) increment < increment then
        Except.ok (false, s1, [])
      else
        let s2 := updatePage s1 p
          { rec with bitmap := set_bits rec.bitmap (offset + oldNumUnits) increment }
        match add_to_superblock s2 p with
        | Except.error f => Except.error f
        | Except.ok s3 => Except.ok (true, s3, [])

/-- Function `bm_release(bm_page, offset, num_units)` (lines 711-731): grab, clear
the block, recompute the longest free block; reinsert, or unmap the page
when its data area became empty. -/
def bm_release (s : St) (p : Nat) (offset numUnits : Nat) :
    Except Fault (Unit × St × List Eff) :=
  match grab_superblock_page s p with
  | Except.error f => Except.error f
  | Except.ok s1 =>
    match lookupPage s1 p with
    | none => Except.error Fault.ub
    | some rec =>
      let bmp := clear_bits rec.bitmap offset numUnits
      let s2 := updatePage s1 p { rec with bitmap := bmp }
      match find_longest_free_block bmp with
      | none => Except.error Fault.ub
      | some lfb =>
        if lfb < maxDataUnits then
          match add_to_superblock_entry s2 p lfb with
          | Except.error f => Except.error f
          | Except.ok s3 =>
            Except.ok ((), { s3 with blocksAllocated := s3.blocksAllocated - 1 }, [])
        else
          let s3 : St :=
            { s2 with
              pages := s2.pages.filter (fun e => ¬ e.1 = p)
              numBmPages := s2.numBmPages - 1
              blocksAllocated := s2.blocksAllocated - 1 }
          Except.ok ((), s3, [Eff.munmapE (p, 0) sysPageSize])

/-!
Section: Allocator facade (`_allocate`, `_release`, `_reallocate`, lines 768-968)
-/

/-- Result of `_reallocate`: the returned bool, the `*addr_changed` out
parameter, and the final `*addr_ptr`. -/
structure RRes where
  ret : Bool
  addrChanged : Bool
  addr : Option Addr
deriving DecidableEq, Repr

/-- Function `_allocate(nbytes, clean)` (lines 768-787): empty for 0 bytes, the
bitmap sub-allocator below `max_data_units`, otherwise a direct anonymous
mapping of `align_unsigned_to_page(nbytes)` bytes (page aligned, fresh id;
`call_mmap` zeroes it when `clean`). -/
def _allocate (s : St) (nbytes : Nat) (clean : Bool) :
    Except Fault (Option Addr × St × List Eff) :=
  if nbytes = 0 then Except.ok (none, s, [])
  else if bytesToUnits nbytes < maxDataUnits then
    bm_allocate s (bytesToUnits nbytes) clean
  else
    let pid := s.nextId
    let s1 : St := { s with nextId := pid + 1, blocksAllocated := s.blocksAllocated + 1 }
    Except.ok (some (pid, 0), s1,
      if clean then [Eff.cleanseE (pid, 0) 0 (alignToPage nbytes)] else [])

/-- Function `_release(addr_ptr, nbytes)` (lines 789-817): no-op on empty, abort on
zero `nbytes`, direct `munmap` when the address is page aligned, else the
bitmap path; clears `*addr_ptr` (the returned `Option Addr`). -/
def _release (s : St) (addrOpt : Option Addr) (nbytes : Nat) :
    Except Fault (Option Addr × St × List Eff) :=
  match addrOpt with
  | none => Except.ok (none, s, [])
  | some addr =>
    if nbytes = 0 then Except.error Fault.abrt
    else if addr.2 = 0 then
      Except.ok (none, { s with blocksAllocated := s.blocksAllocated - 1 },
        [Eff.munmapE addr (alignToPage nbytes)])
    else
      match bm_release s addr.1 (addr.2 / UNIT_SIZE) (bytesToUnits nbytes) with
      | Except.error f => Except.error f
      | Except.ok (_, s1, effs) => Except.ok (none, s1, effs)

/-- The allocate-copy-release grow fallback of `_reallocate`
(lines 927-940): allocate `new_nbytes` (unclean), copy `old_nbytes` bytes,
release the old block, optionally clean the tail; on allocation failure
return false leaving `*addr_ptr` untouched. -/
def reallocFallback (s : St) (addr : Addr) (oldNbytes newNbytes : Nat) (clean : Bool) :
    Except Fault (RRes × St × List Eff) :=
  match _allocate s newNbytes false with
  | Except.error f => Except.error f
  | Except.ok (none, s1, e1) => Except.ok (⟨false, false, some addr⟩, s1, e1)
  | Except.ok (some newBlock, s1, e1) =>
    match _release s1 (some addr) oldNbytes with
    | Except.error f => Except.error f
    | Except.ok (_, s2, e2) =>
      Except.ok (⟨true, if newBlock = addr then false else true, some newBlock⟩, s2,
        e1 ++ [Eff.copyE newBlock addr oldNbytes] ++ e2
           ++ (if clean then [Eff.cleanseE newBlock oldNbytes newNbytes] else []))

/-- Function `_reallocate(addr_ptr, old_nbytes, new_nbytes, clean, addr_changed)`
(lines 819-968).  Faithful transcription: equal byte counts short-circuit;
empty address allocates (error if `old_nbytes != 0`); the
`!(old_nbytes | new_nbytes)` check; equal unit counts keep the address and
clean the grown tail; then the shrink and grow paths with their alignment
aborts.  The large-to-small shrink copies `new_nbytes` and hands the large
mapping to `bm_release` with `new_num_units` (lines 884-892); the
in-place-grow success cleans the whole `[old_nbytes, new_nbytes)` tail;
large-to-large goes through `call_mremap` (modelled as an in-place
`mremapE` effect plus its `clean` tail zeroing on grow). -/
def _reallocate (s : St) (addrOpt : Option Addr) (oldNbytes newNbytes : Nat) (clean : Bool) :
    Except Fault (RRes × St × List Eff) :=
  if oldNbytes = newNbytes then Except.ok (⟨true, false, addrOpt⟩, s, [])
  else
    match addrOpt with
    | none =>
      if oldNbytes ≠ 0 then Except.ok (⟨false, false, none⟩, s, [])
      else
        match _allocate s newNbytes clean with
        | Except.error f => Except.error f
        | Except.ok (none, s1, e1) => Except.ok (⟨false, false, none⟩, s1, e1)
        | Except.ok (some a, s1, e1) => Except.ok (⟨true, true, some a⟩, s1, e1)
    | some addr =>
      if oldNbytes = 0 ∧ newNbytes = 0 then Except.ok (⟨false, false, some addr⟩, s, [])
      else
        let newNumUnits := bytesToUnits newNbytes
        let oldNumUnits := bytesToUnits oldNbytes
        if newNumUnits = oldNumUnits then
          Except.ok (⟨true, false, some addr⟩, s,
            if clean ∧ newNbytes > oldNbytes then [Eff.cleanseE addr oldNbytes newNbytes] else [])
        else if newNumUnits < oldNumUnits then
          -- shrink
          if newNumUnits < maxDataUnits then
            if oldNumUnits < maxDataUnits then
              -- shrink inside the bitmap sub-allocator
              if addr.2 = 0 then Except.error Fault.abrt
              else
                match bm_shrink s addr.1 (addr.2 / UNIT_SIZE) oldNumUnits newNumUnits with
                | Except.error f => Except.error f
                | Except.ok (_, s1, e1) => Except.ok (⟨true, false, some addr⟩, s1, e1)
            else
              -- large to small: fresh bitmap block, copy, then bm_release on the
              -- page-aligned large mapping (lines 884-892)
              if addr.2 ≠ 0 then Except.error Fault.abrt
              else
                match bm_allocate s newNumUnits false with
                | Except.error f => Except.error f
                | Except.ok (none, s1, e1) =>
                  -- falling back to remap (lines 885-887, 900-902)
                  Except.ok (⟨true, false, some addr⟩, s1,
                    e1 ++ [Eff.mremapE addr oldNbytes newNbytes])
                | Except.ok (some newBlock, s1, e1) =>
                  match bm_release s1 addr.1 (addr.2 / UNIT_SIZE) newNumUnits with
                  | Except.error f => Except.error f
                  | Except.ok (_, s2, e2) =>
                    Except.ok (⟨true, true, some newBlock⟩, s2,
                      e1 ++ [Eff.copyE newBlock addr newNbytes] ++ e2)
          else
            -- large to large shrink (never moves, never cleans)
            if addr.2 ≠ 0 then Except.error Fault.abrt
            else Except.ok (⟨true, false, some addr⟩, s, [Eff.mremapE addr oldNbytes newNbytes])
        else
          -- grow
          if oldNumUnits < maxDataUnits then
            if newNumUnits < maxDataUnits then
              if addr.2 = 0 then Except.error Fault.abrt
              else
                match bm_grow s addr.1 (addr.2 / UNIT_SIZE) oldNumUnits newNumUnits with
                | Except.error f => Except.error f
                | Except.ok (true, s1, e1) =>
                  Except.ok (⟨true, false, some addr⟩, s1,
                    e1 ++ (if clean then [Eff.cleanseE addr oldNbytes newNbytes] else []))
                | Except.ok (false, s1, e1) =>
                  match reallocFallback s1 addr oldNbytes newNbytes clean with
                  | Except.error f => Except.error f
                  | Except.ok (r, s2, e2) => Except.ok (r, s2, e1 ++ e2)
            else
              reallocFallback s addr oldNbytes newNbytes clean
          else
            -- large to large grow via mremap (may move; modelled in place)
            if addr.2 ≠ 0 then Except.error Fault.abrt
            else
              Except.ok (⟨true, false, some addr⟩, s,
                [Eff.mremapE addr oldNbytes newNbytes]
                  ++ (if clean then [Eff.cleanseE addr oldNbytes newNbytes] else []))

/-- One step of the `dump` traversal of a bucket (lines 284-293): collect
pages following `next` until the head recurs, with fuel. -/
def chainNext (s : St) (head : Nat) : Nat → Nat → List Nat
  | _, 0 => []
  | cur, fuel + 1 =>
    cur ::
      (match lookupPage s cur with
       | none => []
       | some rec => if rec.next = head then [] else chainNext s head rec.next fuel)

/-- The pages linked in (reachable from) superblock slot `k`, in the order
the `dump` traversal visits them. -/
def linkedPages (s : St) (k : Nat) : List Nat :=
  match sbGet s k with
  | none => []
  | some head => chainNext s head head (s.pages.length + 1)

/-!
Section: Concrete states and traces used to evaluate the code on failing inputs
-/

/-- The initial state right after `_init`: no pages, empty superblock. -/
def st0 : St := ⟨[], List.replicate unitsPerPage none, 1, 0, 0⟩

/-- Keep only the state of an operation result. -/
def stepSt {α : Type} (r : Except Fault (α × St × List Eff)) : Except Fault St :=
  match r with
  | Except.error f => Except.error f
  | Except.ok (_, s, _) => Except.ok s

/-- All-empty superblock slot array. -/
def sbE : List (Option Nat) := List.replicate unitsPerPage none

/-- Bitmap of a page whose data area is entirely free. -/
def bmE : List Bool := List.replicate headerUnits true ++ List.replicate maxDataUnits false

/-- C1 failing input: one standalone large mapping of 8192 bytes (two OS
pages) at page-aligned address (100, 0); no bitmap pages exist. -/
def c1Addr : Addr := (100, 0)

/-- C2 failing input: superblock bucket 5 holds exactly the two-page
circular list 1 ↔ 2 (each page's `next` and `prev` point at the other). -/
def stC2 : St :=
  ⟨[(1, ⟨some 5, 2, 2, bmE⟩), (2, ⟨some 5, 1, 1, bmE⟩)], sbE.set 5 (some 1), 3, 2, 2⟩

/-- State after `delete_from_list(page 1)` on `stC2`: the slot is empty and
page 2 keeps its old neighbour pointers. -/
def stC2after : St :=
  ⟨[(1, ⟨some 5, 2, 2, bmE⟩), (2, ⟨some 5, 1, 1, bmE⟩)], sbE, 3, 2, 2⟩

/-- C3 failing input bitmap: header units 0-3, an allocated run of 2 units
at offset 4, and one more allocated unit at offset 6 blocking any growth;
longest free run 249 (bits 7-255). -/
def bmC3 : List Bool := set_bits (set_bits bmE 4 2) 6 1

/-- C3 failing input state: the page sits alone in bucket 249. -/
def stC3 : St := ⟨[(1, ⟨some 249, 1, 1, bmC3⟩)], sbE.set 249 (some 1), 2, 1, 2⟩

/-- State after the failed `bm_grow`: the slot is empty, the page header
(stale pointers included) and its bitmap are unchanged. -/
def stC3after : St := ⟨[(1, ⟨some 249, 1, 1, bmC3⟩)], sbE, 2, 1, 2⟩

/-!
Section: The C4 trace

Nine legal small-path operations that drive the superblock into a state
where a page is linked in bucket 52 while its longest free run is 22.
Pages 1, 2, 3 each carry a 200-unit block (offset 4) and a 30-unit block
(offset 204); all three share bucket 22.  A failed grow detaches page 2
leaving its stale neighbour pointers (pages 1 and 3); releasing page 1's
small block moves page 1 to bucket 52 (emptying bucket 22 by the C2 bug);
releasing page 2's large block then rewires the stale neighbours:
`prev->next` makes page 1 — now the head of bucket 52 — point at page 3,
whose longest free run is 22. -/
def c4Trace : Except Fault St :=
  stepSt (bm_allocate st0 200 false) >>= fun s =>
  stepSt (bm_allocate s 30 false) >>= fun s =>
  stepSt (bm_allocate s 200 false) >>= fun s =>
  stepSt (bm_allocate s 30 false) >>= fun s =>
  stepSt (bm_allocate s 200 false) >>= fun s =>
  stepSt (bm_allocate s 30 false) >>= fun s =>
  stepSt (bm_grow s 2 4 200 201) >>= fun s =>
  stepSt (bm_release s 1 204 30) >>= fun s =>
  stepSt (bm_release s 2 4 200)

/-- Bitmap with header plus a 200-unit block: bits 0-203 set. -/
def bmFull : List Bool := List.replicate 204 true ++ List.replicate 52 false

/-- Bitmap with header, a 200-unit and a 30-unit block: bits 0-233 set. -/
def bmTwo : List Bool := List.replicate 234 true ++ List.replicate 22 false

/-- Bitmap `bmTwo` after clearing the 200-unit block: header set, units 4-203
free, units 204-233 set, tail free. -/
def bmP2R : List Bool :=
  List.replicate 4 true ++ List.replicate 200 false ++
    List.replicate 30 true ++ List.replicate 22 false

/-- Trace state 1: page 1 with a 200-unit block, bucket 52. -/
def c4s1 : St := ⟨[(1, ⟨some 52, 1, 1, bmFull⟩)], sbE.set 52 (some 1), 2, 1, 1⟩

/-- Trace state 2: page 1 gains a 30-unit block, moves to bucket 22. -/
def c4s2 : St := ⟨[(1, ⟨some 22, 1, 1, bmTwo⟩)], sbE.set 22 (some 1), 2, 1, 2⟩

/-- Trace state 3: fresh page 2 with a 200-unit block, bucket 52. -/
def c4s3 : St := ⟨[(1, ⟨some 22, 1, 1, bmTwo⟩), (2, ⟨some 52, 2, 2, bmFull⟩)],
  (sbE.set 22 (some 1)).set 52 (some 2), 3, 2, 3⟩

/-- Trace state 4: page 2 gains its 30-unit block and joins bucket 22. -/
def c4s4 : St := ⟨[(1, ⟨some 22, 2, 2, bmTwo⟩), (2, ⟨some 22, 1, 1, bmTwo⟩)],
  sbE.set 22 (some 1), 3, 2, 4⟩

/-- Trace state 5: fresh page 3 with a 200-unit block, bucket 52. -/
def c4s5 : St :=
  ⟨[(1, ⟨some 22, 2, 2, bmTwo⟩), (2, ⟨some 22, 1, 1, bmTwo⟩), (3, ⟨some 52, 3, 3, bmFull⟩)],
    (sbE.set 22 (some 1)).set 52 (some 3), 4, 3, 5⟩

/-- Trace state 6: page 3 joins bucket 22; circular list 1 → 2 → 3 → 1. -/
def c4s6 : St :=
  ⟨[(1, ⟨some 22, 2, 3, bmTwo⟩), (2, ⟨some 22, 3, 1, bmTwo⟩), (3, ⟨some 22, 1, 2, bmTwo⟩)],
    sbE.set 22 (some 1), 4, 3, 6⟩

/-- Trace state 7: the failed grow has detached page 2 (stale pointers
`next = 3`, `prev = 1` kept); bucket 22 is the two-page list 1 ↔ 3. -/
def c4s7 : St :=
  ⟨[(1, ⟨some 22, 3, 3, bmTwo⟩), (2, ⟨some 22, 3, 1, bmTwo⟩), (3, ⟨some 22, 1, 1, bmTwo⟩)],
    sbE.set 22 (some 1), 4, 3, 6⟩

/-- Trace state 8: releasing page 1's 30-unit block emptied slot 22
(two-page `next == prev` branch, orphaning page 3) and moved page 1 to
bucket 52 as a singleton. -/
def c4s8 : St :=
  ⟨[(1, ⟨some 52, 1, 1, bmFull⟩), (2, ⟨some 22, 3, 1, bmTwo⟩), (3, ⟨some 22, 1, 1, bmTwo⟩)],
    sbE.set 52 (some 1), 4, 3, 5⟩

/-- Trace state 9: releasing page 2's 200-unit block replayed the stale
unlink — `page2.prev->next`, i.e. `page1.next`, now points at page 3 while
page 1 heads bucket 52 — then filed page 2 under bucket 200. -/
def c4s9 : St :=
  ⟨[(1, ⟨some 52, 3, 1, bmFull⟩), (2, ⟨some 200, 2, 2, bmP2R⟩), (3, ⟨some 22, 1, 1, bmTwo⟩)],
    (sbE.set 52 (some 1)).set 200 (some 2), 4, 3, 4⟩

/-- Every live page's bitmap has exactly `units_per_page` bits (true of
every page the allocator maps; `bm_allocate` creates them this way). -/
def WfSt (s : St) : Prop :=
  ∀ e ∈ s.pages, (e : Nat × PageRec).2.bitmap.length = unitsPerPage

def BUBBLEWRAP : Nat := 32

def infoSize : Nat := 16

def calc_memsize (nbytes : Nat) : Nat := infoSize + nbytes + BUBBLEWRAP * 2

def dbgAllocRegion (nbytes : Nat) (blockBytes : List Nat) : List Nat :=
  List.replicate (infoSize + BUBBLEWRAP) 255 ++ blockBytes ++ List.replicate BUBBLEWRAP 255

def overwrite : List Nat → Nat → List Nat → List Nat
  | [], _, _ => []
  | l, _, [] => l
  | b :: rest, p + 1, src => b :: overwrite rest p src
  | _ :: rest, 0, v :: src => v :: overwrite rest 0 src

def zeroRange : List Nat → Nat → Nat → List Nat
  | [], _, _ => []
  | l, _, 0 => l
  | b :: rest, p + 1, c => b :: zeroRange rest p c
  | _ :: rest, 0, c + 1 => 0 :: zeroRange rest 0 c

def dbg_reallocate_region (oldN newN : Nat) (obc g : List Nat) (clean : Bool) : List Nat :=
  let r := dbgAllocRegion newN g
  let r1 := overwrite r (infoSize + BUBBLEWRAP) (obc.take oldN)
  if clean then zeroRange r1 (infoSize + BUBBLEWRAP + oldN) (wsub32 newN oldN) else r1

def damaged_lower (region : List Nat) : Nat :=
  ((List.range BUBBLEWRAP).map (fun k => region.getD (infoSize + k) 0)).countP
    (fun b => b != 255)

def damaged_upper (region : List Nat) (nbytes : Nat) : Nat :=
  ((List.range BUBBLEWRAP).map
    (fun k => region.getD (infoSize + BUBBLEWRAP + nbytes + k) 0)).countP
    (fun b => b != 255)

def check_region_exits (region : List Nat) (nbytes : Nat) : Bool :=
  damaged_upper region nbytes != 0 || damaged_lower region != 0

/-!
Section: Lemmas and claim theorems
-/

/-- An `Except.ok` result feeds the continuation. -/
theorem bind_ok {α β : Type} (a : α) (f : α → Except Fault β) :
    (Except.ok a >>= f) = f a := rfl

/-- C1: shrinking a large block (old 8192 bytes, `old_u = 512 ≥
max_data_units`) to a small one (new 16 bytes, one unit) with the fresh
small-block allocation succeeding.  The claim says the original large OS
mapping is unmapped and the call returns true with `addr_changed = true`;
instead `_reallocate` (line 890) passes the page-aligned large mapping to
`bm_release` with `new_num_units`, which dereferences `BmPageHeader` fields
inside the caller's data (`bm_page->list` in `delete_from_list`) — undefined
behaviour, and the large mapping is never `munmap`ed. -/
theorem C1_large_to_small_realloc_mangles_release :
    _reallocate st0 (some c1Addr) 8192 16 false = Except.error Fault.ub := by decide

/-- C2: detaching page 1 from the two-page bucket list {1, 2} takes the
`next == prev` branch of `delete_from_list` (line 540) — true in a two-page
circular list, not only for a sole member — and stores the slot empty, so
page 2, still allocated, is no longer reachable from any superblock slot.
The claim says the slot is emptied only when the detached page was the sole
member and every other page stays linked. -/
theorem C2_detach_two_page_list_orphans_other :
    delete_from_list stC2 1 = Except.ok stC2after ∧
    sbGet stC2after 5 = none ∧
    lookupPage stC2after 2 = some ⟨some 5, 1, 1, bmE⟩ ∧
    (∀ k, k < unitsPerPage → ¬ 2 ∈ linkedPages stC2after k) := by
  refine ⟨by decide, by decide, by decide, by decide⟩

/-- C3: growing the run at offset 4 from 2 to 3 units fails (bit 6 is set,
`count_zero_bits(6, 1) = 0 < 1`), and the bitmap is indeed unchanged — but
`bm_grow` has already called `grab_superblock_page` and its failure path
(lines 701-704) returns without re-inserting the page, so the page is no
longer linked in any superblock bucket, against the claim that on failure
the page is still linked in the bucket it occupied (bucket 249). -/
theorem C3_failed_grow_leaves_page_detached :
    bm_grow stC3 1 4 2 3 = Except.ok (false, stC3after, []) ∧
    lookupPage stC3after 1 = some ⟨some 249, 1, 1, bmC3⟩ ∧
    (∀ k, k < unitsPerPage → ¬ 1 ∈ linkedPages stC3after k) ∧
    find_longest_free_block bmC3 = some 249 := by
  refine ⟨by decide, by decide, by decide, by decide⟩

/-- C5: with a non-empty address and `old_nbytes = new_nbytes = 0`,
`_reallocate` takes the `old_nbytes == new_nbytes` fast path (line 821)
before the `!(old_nbytes | new_nbytes)` invalid-argument check (line 842)
can fire, and reports success with the address kept and
`addr_changed = false` — not the invalid-argument error the claim (and the
dead check's own diagnostics) prescribe. -/
theorem C5_zero_zero_reallocate_reports_success :
    _reallocate stC3 (some (1, 64)) 0 0 false =
      Except.ok (⟨true, false, some (1, 64)⟩, stC3, []) := by decide

/-- Trace step 1 evaluated. -/
theorem c4step1 : stepSt (bm_allocate st0 200 false) = Except.ok c4s1 := by decide

/-- Trace step 2 evaluated. -/
theorem c4step2 : stepSt (bm_allocate c4s1 30 false) = Except.ok c4s2 := by decide

/-- Trace step 3 evaluated. -/
theorem c4step3 : stepSt (bm_allocate c4s2 200 false) = Except.ok c4s3 := by decide

/-- Trace step 4 evaluated. -/
theorem c4step4 : stepSt (bm_allocate c4s3 30 false) = Except.ok c4s4 := by decide

/-- Trace step 5 evaluated. -/
theorem c4step5 : stepSt (bm_allocate c4s4 200 false) = Except.ok c4s5 := by decide

/-- Trace step 6 evaluated. -/
theorem c4step6 : stepSt (bm_allocate c4s5 30 false) = Except.ok c4s6 := by decide

/-- Trace step 7 evaluated: the grow of page 2's 200-unit block to 201
units fails (unit 204 is in use) and detaches the page. -/
theorem c4step7 : stepSt (bm_grow c4s6 2 4 200 201) = Except.ok c4s7 := by decide

/-- Trace step 8 evaluated. -/
theorem c4step8 : stepSt (bm_release c4s7 1 204 30) = Except.ok c4s8 := by decide

/-- Trace step 9 evaluated. -/
theorem c4step9 : stepSt (bm_release c4s8 2 4 200) = Except.ok c4s9 := by decide

/-- C4: the bucket-correctness invariant "every page linked in
`superblock[k]` has longest free run `k`" is violated in a state reachable
by nine legal small-path operations (six allocates, one failed grow, two
releases): in the final state page 3 is linked in (reachable from) bucket
52 while its longest free run is 22. -/
theorem C4_bucket_invariant_violated_by_reachable_state :
    c4Trace = Except.ok c4s9 ∧
    3 ∈ linkedPages c4s9 52 ∧
    (lookupPage c4s9 3).map (fun r => find_longest_free_block r.bitmap) = some (some 22) ∧
    (22 : Nat) ≠ 52 := by
  refine ⟨?_, by decide, by decide, by decide⟩
  unfold c4Trace
  simp only [c4step1, c4step2, c4step3, c4step4, c4step5, c4step6, c4step7, c4step8, c4step9,
    bind_ok]

theorem countLeading_le (v : Bool) (l : List Bool) : countLeading v l ≤ l.length := by
  induction l with
  | nil => simp [countLeading]
  | cons b rest ih =>
    simp only [countLeading, List.length_cons]
    split <;> omega

theorem getD_lt_countLeading (v : Bool) (l : List Bool) (i : Nat) (d : Bool)
    (h : i < countLeading v l) : l.getD i d = v := by
  induction l generalizing i with
  | nil => simp [countLeading] at h
  | cons b rest ih =>
    simp only [countLeading] at h
    by_cases hb : b = v
    · rw [if_pos hb] at h
      cases i with
      | zero => simpa using hb
      | succ j => simpa using ih j (by omega)
    · rw [if_neg hb] at h; omega

theorem getD_countLeading (v : Bool) (l : List Bool)
    (h : countLeading v l < l.length) : l.getD (countLeading v l) false = !v := by
  induction l with
  | nil => simp at h
  | cons b rest ih =>
    simp only [countLeading, List.length_cons] at *
    by_cases hb : b = v
    · rw [if_pos hb] at *
      simpa using ih (by omega)
    · rw [if_neg hb]
      cases b <;> cases v <;> simp_all

theorem countLeading_eq_length (v : Bool) (l : List Bool)
    (h : l.any (fun b => b != v) = false) : countLeading v l = l.length := by
  induction l with
  | nil => rfl
  | cons b rest ih =>
    simp only [List.any_cons, Bool.or_eq_false_iff] at h
    have hb : b = v := by cases b <;> cases v <;> simp_all
    simp [countLeading, hb, ih h.2]

theorem countLeading_lt_length (v : Bool) (l : List Bool)
    (h : l.any (fun b => b != v) = true) : countLeading v l < l.length := by
  induction l with
  | nil => simp at h
  | cons b rest ih =>
    simp only [List.any_cons, Bool.or_eq_true] at h
    simp only [countLeading, List.length_cons]
    by_cases hb : b = v
    · rw [if_pos hb]
      rcases h with h | h
      · simp [hb] at h
      · exact Nat.succ_lt_succ (ih h)
    · rw [if_neg hb]; omega

theorem countLeading_pos (v : Bool) (l : List Bool)
    (h0 : 0 < l.length) (h : l.getD 0 false = v) : 1 ≤ countLeading v l := by
  cases l with
  | nil => simp at h0
  | cons b rest => simp only [List.getD_cons_zero] at h; simp [countLeading, h]

theorem all_of_any_eq_false (v : Bool) (l : List Bool)
    (h : l.any (fun b => b != v) = false) (i : Nat) (hi : i < l.length) :
    l.getD i false = v := by
  have := getD_lt_countLeading v l i false (by rw [countLeading_eq_length v l h]; exact hi)
  exact this

theorem bit_drop_take (bm : List Bool) (o k i : Nat) (h1 : i < k) :
    ((bm.drop o).take k).getD i false = bit bm (o + i) := by
  simp [bit, List.getD_eq_getElem?_getD, List.getElem?_take, h1, List.getElem?_drop]

theorem length_drop_take (bm : List Bool) (o k : Nat) (h : o + k ≤ bm.length) :
    ((bm.drop o).take k).length = k := by
  simp only [List.length_take, List.length_drop]
  omega

theorem word_le_of_lt (len offset : Nat) (h64 : WORD_WIDTH ∣ len) (ho64 : WORD_WIDTH ∣ offset)
    (h : offset < len) : offset + WORD_WIDTH ≤ len := by
  have hd : WORD_WIDTH ∣ len - offset := Nat.dvd_sub' h64 ho64
  have : WORD_WIDTH ≤ len - offset := Nat.le_of_dvd (by omega) hd
  omega

theorem bitRunLoop_spec (v : Bool) (bm : List Bool) (limit : Nat)
    (h64 : WORD_WIDTH ∣ bm.length) :
    ∀ (fuel offset count : Nat), WORD_WIDTH ∣ offset → offset ≤ bm.length →
      bm.length ≤ offset + WORD_WIDTH * fuel →
      ∃ c, bitRunLoop v bm limit fuel offset count = count + c ∧
        (∀ i, offset ≤ i → i < offset + c → bit bm i = v) ∧
        offset + c ≤ bm.length ∧
        (count + c < limit → offset + c = bm.length ∨ bit bm (offset + c) = !v) := by
  intro fuel
  induction fuel with
  | zero =>
    intro offset count ho64 hole hfuel
    refine ⟨0, rfl, by omega, by omega, fun _ => Or.inl (by omega)⟩
  | succ n ih =>
    intro offset count ho64 hole hfuel
    simp only [bitRunLoop]
    by_cases hg : offset < bm.length ∧ count < limit
    · rw [if_pos hg]
      have hwe : offset + WORD_WIDTH ≤ bm.length := word_le_of_lt _ _ h64 ho64 hg.1
      have hwlen : ((bm.drop offset).take WORD_WIDTH).length = WORD_WIDTH :=
        length_drop_take bm offset WORD_WIDTH hwe
      by_cases ha : ((bm.drop offset).take WORD_WIDTH).any (fun b => b != v) = true
      · rw [if_pos ha]
        set w := (bm.drop offset).take WORD_WIDTH with hw
        have hc : countLeading v w < WORD_WIDTH := by
          have := countLeading_lt_length v w ha
          omega
        refine ⟨countLeading v w, rfl, ?_, by omega, fun _ => Or.inr ?_⟩
        · intro i hi1 hi2
          have := getD_lt_countLeading v w (i - offset) false (by omega)
          rw [hw, bit_drop_take bm offset WORD_WIDTH (i - offset) (by omega)] at this
          have : bit bm (offset + (i - offset)) = v := this
          rwa [show offset + (i - offset) = i by omega] at this
        · have := getD_countLeading v w (by omega)
          rwa [hw, bit_drop_take bm offset WORD_WIDTH (countLeading v w) (by omega)] at this
      · rw [if_neg ha]
        push_neg at ha
        have ha' : ((bm.drop offset).take WORD_WIDTH).any (fun b => b != v) = false := by
          cases hx : ((bm.drop offset).take WORD_WIDTH).any (fun b => b != v)
          · rfl
          · exact absurd hx ha
        obtain ⟨c2, hr, hz, hb, hs⟩ := ih (offset + WORD_WIDTH) (count + WORD_WIDTH)
          (Nat.dvd_add ho64 dvd_rfl) hwe (by rw [Nat.mul_succ] at hfuel; omega)
        refine ⟨WORD_WIDTH + c2, by rw [hr]; omega, ?_, by omega, ?_⟩
        · intro i hi1 hi2
          by_cases hcase : i < offset + WORD_WIDTH
          · have := all_of_any_eq_false v _ ha' (i - offset) (by omega)
            rw [bit_drop_take bm offset WORD_WIDTH (i - offset) (by omega)] at this
            rwa [show offset + (i - offset) = i by omega] at this
          · have := hz i (by omega) (by omega)
            exact this
        · intro hlim
          rcases hs (by omega) with h1 | h1
          · exact Or.inl (by omega)
          · exact Or.inr (by rwa [show offset + (WORD_WIDTH + c2) = offset + WORD_WIDTH + c2 by omega])
    · rw [if_neg hg]
      refine ⟨0, rfl, by omega, by omega, fun hlt => Or.inl ?_⟩
      have : ¬ offset < bm.length := by
        intro hx
        exact hg ⟨hx, by omega⟩
      omega

theorem WORD_WIDTH_eq : WORD_WIDTH = 64 := rfl

theorem length_le_word_mul_wordFuel (bm : List Bool) :
    bm.length ≤ WORD_WIDTH * wordFuel bm := by
  simp only [wordFuel, WORD_WIDTH]
  omega

theorem bitRun_spec (v : Bool) (bm : List Bool) (offset limit : Nat)
    (h64 : WORD_WIDTH ∣ bm.length) (ho : offset ≤ bm.length) :
    (∀ i, offset ≤ i → i < offset + bitRun v bm offset limit → bit bm i = v) ∧
    offset + bitRun v bm offset limit ≤ bm.length ∧
    (bitRun v bm offset limit < limit →
      offset + bitRun v bm offset limit = bm.length ∨
      bit bm (offset + bitRun v bm offset limit) = !v) := by
  unfold bitRun
  simp only [WORD_WIDTH_eq] at h64 ⊢
  by_cases hbi : offset % 64 ≠ 0
  · rw [if_pos hbi]
    -- offset is not word aligned, hence offset < bm.length
    have holt : offset < bm.length := by
      rcases Nat.lt_or_ge offset bm.length with h | h
      · exact h
      · exfalso
        have he : offset = bm.length := by omega
        have h0 : bm.length % 64 = 0 := Nat.mod_eq_zero_of_dvd h64
        rw [he] at hbi
        exact hbi h0
    have hws64 : 64 ∣ offset - offset % 64 := by
      have : offset - offset % 64 = 64 * (offset / 64) := by
        omega
      exact this ▸ Dvd.intro _ rfl
    have hwe : offset + (64 - offset % 64) ≤ bm.length := by
      have h1 : offset - offset % 64 < bm.length := by omega
      have := word_le_of_lt bm.length (offset - offset % 64) h64 hws64 h1
      have hmod : offset % 64 < 64 := Nat.mod_lt _ (by omega)
      omega
    have hwlen : ((bm.drop offset).take (64 - offset % 64)).length
        = 64 - offset % 64 := length_drop_take _ _ _ hwe
    have hmod : offset % 64 < 64 := Nat.mod_lt _ (by omega)
    by_cases ha : ((bm.drop offset).take (64 - offset % 64)).any
        (fun b => b != v) = true
    · rw [if_pos ha]
      set w := (bm.drop offset).take (64 - offset % 64) with hw
      have hc : countLeading v w < 64 - offset % 64 := by
        have := countLeading_lt_length v w ha
        omega
      refine ⟨?_, by omega, fun _ => Or.inr ?_⟩
      · intro i hi1 hi2
        have := getD_lt_countLeading v w (i - offset) false (by omega)
        rw [hw, bit_drop_take bm offset _ (i - offset) (by omega)] at this
        rwa [show offset + (i - offset) = i by omega] at this
      · have := getD_countLeading v w (by omega)
        rwa [hw, bit_drop_take bm offset _ (countLeading v w) (by omega)] at this
    · rw [if_neg ha]
      have ha2 : ((bm.drop offset).take (64 - offset % 64)).any
          (fun b => b != v) = false := by
        cases hx : ((bm.drop offset).take (64 - offset % 64)).any
          (fun b => b != v)
        · rfl
        · exact absurd hx ha
      obtain ⟨c2, hr, hz, hb, hs⟩ := bitRunLoop_spec v bm limit h64 (wordFuel bm)
        (offset + (64 - offset % 64)) (64 - offset % 64)
        (by
          have : offset + (64 - offset % 64)
              = offset - offset % 64 + 64 := by omega
          rw [this]
          exact Nat.dvd_add hws64 dvd_rfl)
        hwe
        (by have := length_le_word_mul_wordFuel bm; omega)
      rw [hr]
      refine ⟨?_, by omega, ?_⟩
      · intro i hi1 hi2
        by_cases hcase : i < offset + (64 - offset % 64)
        · have := all_of_any_eq_false v _ ha2 (i - offset) (by omega)
          rw [bit_drop_take bm offset _ (i - offset) (by omega)] at this
          rwa [show offset + (i - offset) = i by omega] at this
        · exact hz i (by omega) (by omega)
      · intro hlim
        rcases hs (by omega) with h1 | h1
        · exact Or.inl (by omega)
        · exact Or.inr (by
            rwa [show offset + (64 - offset % 64 + c2)
              = offset + (64 - offset % 64) + c2 by omega])
  · rw [if_neg hbi]
    have ho64 : 64 ∣ offset := by
      have : offset % 64 = 0 := by omega
      exact Nat.dvd_of_mod_eq_zero this
    obtain ⟨c, hr, hz, hb, hs⟩ := bitRunLoop_spec v bm limit h64 (wordFuel bm) offset 0
      ho64 ho (by have := length_le_word_mul_wordFuel bm; omega)
    rw [hr]
    refine ⟨fun i h1 h2 => hz i h1 (by omega), by omega, fun hl => ?_⟩
    have := hs (by omega)
    rcases this with h1 | h1
    · exact Or.inl (by omega)
    · exact Or.inr (by rwa [show offset + (0 + c) = offset + c by omega])

theorem bitRunLoop_ge (v : Bool) (bm : List Bool) (limit : Nat) :
    ∀ (fuel offset count : Nat), count ≤ bitRunLoop v bm limit fuel offset count := by
  intro fuel
  induction fuel with
  | zero => intro o c; simp [bitRunLoop]
  | succ n ih =>
    intro o c
    simp only [bitRunLoop]
    split
    · split
      · omega
      · exact le_trans (by omega) (ih (o + WORD_WIDTH) (c + WORD_WIDTH))
    · exact le_rfl

/-- If the bit at `offset` equals `v`, both counting primitives report at
least one `v`-bit (for a positive limit). -/
theorem bitRun_pos (v : Bool) (bm : List Bool) (offset limit : Nat)
    (h64 : WORD_WIDTH ∣ bm.length) (ho : offset < bm.length) (hl : 1 ≤ limit)
    (hbit : bit bm offset = v) : 1 ≤ bitRun v bm offset limit := by
  unfold bitRun
  simp only [WORD_WIDTH_eq] at h64 ⊢
  have hmod : offset % 64 < 64 := by omega
  by_cases hbi : offset % 64 ≠ 0
  · rw [if_pos hbi]
    have hws64 : (64 : Nat) ∣ offset - offset % 64 := by
      have h2 : offset - offset % 64 = 64 * (offset / 64) := by omega
      exact h2 ▸ Dvd.intro _ rfl
    have hwe : offset + (64 - offset % 64) ≤ bm.length := by
      have h1 : offset - offset % 64 < bm.length := by omega
      have := word_le_of_lt bm.length (offset - offset % 64) h64 hws64 h1
      omega
    have hwlen : ((bm.drop offset).take (64 - offset % 64)).length = 64 - offset % 64 :=
      length_drop_take _ _ _ hwe
    have hhead : ((bm.drop offset).take (64 - offset % 64)).getD 0 false = v := by
      rw [bit_drop_take bm offset _ 0 (by omega)]
      simpa using hbit
    split
    · exact countLeading_pos v _ (by omega) hhead
    · exact le_trans (by omega)
        (bitRunLoop_ge v bm limit (wordFuel bm) (offset + (64 - offset % 64)) (64 - offset % 64))
  · rw [if_neg hbi]
    have ho64 : (64 : Nat) ∣ offset := Nat.dvd_of_mod_eq_zero (by omega)
    show 1 ≤ bitRunLoop v bm limit (wordFuel bm) offset 0
    have hfuel : 1 ≤ wordFuel bm := by simp [wordFuel]
    obtain ⟨f, hf⟩ : ∃ f, wordFuel bm = f + 1 := ⟨wordFuel bm - 1, by omega⟩
    rw [hf]
    simp only [bitRunLoop, WORD_WIDTH_eq]
    rw [if_pos ⟨ho, by omega⟩]
    have hwe : offset + 64 ≤ bm.length := word_le_of_lt bm.length offset h64 ho64 ho
    have hhead : ((bm.drop offset).take 64).getD 0 false = v := by
      rw [bit_drop_take bm offset _ 0 (by omega)]
      simpa using hbit
    split
    · have := countLeading_pos v ((bm.drop offset).take 64)
        (by rw [length_drop_take _ _ _ hwe]; omega) hhead
      omega
    · have := bitRunLoop_ge v bm limit f (offset + 64) (0 + 64)
      omega

/-- If the bit at `offset` differs from `v`, both counting primitives
report zero. -/
theorem bitRun_zero (v : Bool) (bm : List Bool) (offset limit : Nat)
    (h64 : WORD_WIDTH ∣ bm.length) (ho : offset < bm.length)
    (hbit : bit bm offset = !v) : bitRun v bm offset limit = 0 := by
  have h := bitRun_spec v bm offset limit h64 (le_of_lt ho)
  rcases Nat.eq_zero_or_pos (bitRun v bm offset limit) with h0 | hpos
  · exact h0
  · exfalso
    have := h.1 offset le_rfl (by omega)
    rw [hbit] at this
    cases v <;> simp_all

/-- C7: `count_zero_bits(offset, hint)` on a page bitmap returns `c` with
all bits of `[offset, offset+c)` zero, `offset + c` never beyond the end of
the bitmap, and `c < hint` only when the zero run really ends at `offset+c`
(end of bitmap or a set bit); and the count may exceed the hint. -/
theorem C7_count_zero_bits_spec :
    (∀ (bm : List Bool) (offset hint : Nat), bm.length = unitsPerPage → offset < unitsPerPage →
      (∀ i, offset ≤ i → i < offset + count_zero_bits bm offset hint → bit bm i = false) ∧
      offset + count_zero_bits bm offset hint ≤ unitsPerPage ∧
      (count_zero_bits bm offset hint < hint →
        offset + count_zero_bits bm offset hint = unitsPerPage ∨
        bit bm (offset + count_zero_bits bm offset hint) = true)) ∧
    (∃ (bm : List Bool) (offset hint : Nat), bm.length = unitsPerPage ∧ offset < unitsPerPage ∧
      hint < count_zero_bits bm offset hint) := by
  constructor
  · intro bm offset hint hlen hoff
    have h64 : WORD_WIDTH ∣ bm.length := by rw [hlen]; decide
    have h := bitRun_spec false bm offset hint h64 (by omega)
    rw [hlen] at h
    unfold count_zero_bits
    refine ⟨h.1, h.2.1, fun hlt => ?_⟩
    rcases h.2.2 hlt with h1 | h1
    · exact Or.inl h1
    · exact Or.inr (by simpa using h1)
  · exact ⟨List.replicate unitsPerPage false, 1, 1, by decide, by decide, by decide⟩

/-- C7 witness: the specification evaluated on the empty-page bitmap at
offset 4 with hint 3. -/
theorem C7_count_zero_bits_spec_witness :
    ((∀ i, 4 ≤ i → i < 4 + count_zero_bits bmE 4 3 → bit bmE i = false) ∧
      4 + count_zero_bits bmE 4 3 ≤ unitsPerPage ∧
      (count_zero_bits bmE 4 3 < 3 →
        4 + count_zero_bits bmE 4 3 = unitsPerPage ∨ bit bmE (4 + count_zero_bits bmE 4 3) = true)) ∧
    count_zero_bits bmE 4 3 = 60 :=
  ⟨C7_count_zero_bits_spec.1 bmE 4 3 (by decide) (by decide), by decide⟩

theorem wsub32_sub (a b : Nat) (h1 : b ≤ a) (h2 : a < 4294967296) : wsub32 a b = a - b := by
  unfold wsub32
  omega

theorem UINT_MAX_pos : 1 ≤ UINT_MAX := by decide

theorem count_zero_bits_eq (bm : List Bool) (o l : Nat) :
    count_zero_bits bm o l = bitRun false bm o l := rfl

theorem count_nonzero_bits_eq (bm : List Bool) (o l : Nat) :
    count_nonzero_bits bm o l = bitRun true bm o l := rfl

theorem ffbLoop_terminates (bm : List Bool) (bs : Nat) (h64 : WORD_WIDTH ∣ bm.length) :
    ∀ (fuel offset : Nat), 1 ≤ fuel → bm.length + 2 ≤ offset + fuel →
      ∃ r, ffbLoop bm bs offset fuel = some r := by
  intro fuel
  induction fuel with
  | zero => intro o h1 _; omega
  | succ n ih =>
    intro offset _ h2
    simp only [ffbLoop, count_zero_bits_eq, count_nonzero_bits_eq]
    by_cases hoff : offset < bm.length
    · rw [if_pos hoff]
      by_cases hfound : bitRun false bm offset bs ≥ bs
      · rw [if_pos hfound]
        exact ⟨offset, rfl⟩
      · rw [if_neg hfound]
        have hspec1 := bitRun_spec false bm offset bs h64 (le_of_lt hoff)
        have hc1 : offset + bitRun false bm offset bs ≤ bm.length := hspec1.2.1
        have hspec2 := bitRun_spec true bm (offset + bitRun false bm offset bs) UINT_MAX h64 hc1
        have hc2 : offset + bitRun false bm offset bs
            + bitRun true bm (offset + bitRun false bm offset bs) UINT_MAX
            ≤ bm.length := hspec2.2.1
        have hprog : 1 ≤ bitRun false bm offset bs
            + bitRun true bm (offset + bitRun false bm offset bs) UINT_MAX := by
          cases hbit : bit bm offset with
          | false =>
            have := bitRun_pos false bm offset bs h64 hoff (by omega) hbit
            omega
          | true =>
            have hz : bitRun false bm offset bs = 0 :=
              bitRun_zero false bm offset bs h64 hoff (by simpa using hbit)
            have := bitRun_pos true bm (offset + bitRun false bm offset bs) UINT_MAX h64
              (by omega) UINT_MAX_pos (by rw [hz]; simpa using hbit)
            omega
        have hfuel1 : 1 ≤ n := by omega
        exact ih _ hfuel1 (by omega)
    · rw [if_neg hoff]
      exact ⟨0, rfl⟩

theorem flfbLoop_terminates (bm : List Bool) (h64 : WORD_WIDTH ∣ bm.length)
    (hsmall : bm.length < 4294967296) :
    ∀ (fuel offset n lfb : Nat), offset + n = bm.length → n < fuel →
      ∃ r, flfbLoop bm offset n lfb fuel = some r := by
  intro fuel
  induction fuel with
  | zero => intro o n lfb _ h; omega
  | succ f ih =>
    intro offset n lfb hinv hn
    simp only [flfbLoop, count_zero_bits_eq, count_nonzero_bits_eq]
    by_cases hn0 : n ≠ 0
    · rw [if_pos hn0]
      have hoff : offset ≤ bm.length := by omega
      have hspec1 := bitRun_spec false bm offset n h64 hoff
      have hb1 : bitRun false bm offset n ≤ n := by
        have := hspec1.2.1
        omega
      have hs1 : wsub32 n (bitRun false bm offset n) = n - bitRun false bm offset n :=
        wsub32_sub _ _ hb1 (by omega)
      rw [hs1]
      have hoff1 : offset + bitRun false bm offset n ≤ bm.length := hspec1.2.1
      have hspec2 := bitRun_spec true bm (offset + bitRun false bm offset n)
        (n - bitRun false bm offset n) h64 hoff1
      have hb2 : bitRun true bm (offset + bitRun false bm offset n)
          (n - bitRun false bm offset n) ≤ n - bitRun false bm offset n := by
        have := hspec2.2.1
        omega
      have hs2 : wsub32 (n - bitRun false bm offset n)
          (bitRun true bm (offset + bitRun false bm offset n) (n - bitRun false bm offset n))
          = n - bitRun false bm offset n
            - bitRun true bm (offset + bitRun false bm offset n) (n - bitRun false bm offset n) :=
        wsub32_sub _ _ hb2 (by omega)
      rw [hs2]
      have hprog : 1 ≤ bitRun false bm offset n
          + bitRun true bm (offset + bitRun false bm offset n) (n - bitRun false bm offset n) := by
        cases hbit : bit bm offset with
        | false =>
          have := bitRun_pos false bm offset n h64 (by omega) (by omega) hbit
          omega
        | true =>
          have hz : bitRun false bm offset n = 0 :=
            bitRun_zero false bm offset n h64 (by omega) (by simpa using hbit)
          have := bitRun_pos true bm (offset + bitRun false bm offset n)
            (n - bitRun false bm offset n) h64 (by omega) (by omega)
            (by rw [hz]; simpa using hbit)
          omega
      exact ih _ _ _ (by omega) (by omega)
    · rw [if_neg hn0]
      exact ⟨lfb, rfl⟩

/-- C10: on a page bitmap with the header bits set, both scans terminate:
`find_longest_free_block`'s unsigned budget never wraps (each iteration's
combined zero and nonzero counts are at least 1 and never exceed the
remaining budget, which is why the fuel `max_data_units + 1` suffices and
the result is `some _` rather than the fuel-out `none`), and
`find_free_block`'s offset strictly increases up to `units_per_page`. -/
theorem C10_scan_loops_terminate (bm : List Bool) (hlen : bm.length = unitsPerPage)
    (hdr : ∀ i, i < headerUnits → bit bm i = true) :
    (∃ r, find_longest_free_block bm = some r) ∧
    (∀ bs, ∃ r, find_free_block bm bs = some r) := by
  have h64 : WORD_WIDTH ∣ bm.length := by rw [hlen]; decide
  constructor
  · unfold find_longest_free_block
    exact flfbLoop_terminates bm h64 (by rw [hlen]; decide) (maxDataUnits + 1)
      headerUnits maxDataUnits 0 (by rw [hlen]; decide) (by decide)
  · intro bs
    unfold find_free_block
    have h4 : headerUnits = 4 := by decide
    exact ffbLoop_terminates bm bs h64 (bm.length + 1) headerUnits (by omega) (by omega)

/-- C10 witness: both scans terminate on the empty-page bitmap. -/
theorem C10_scan_loops_terminate_witness :
    (∃ r, find_longest_free_block bmE = some r) ∧
    (∃ r, find_free_block bmE 3 = some r) := by
  have h := C10_scan_loops_terminate bmE (by decide) (by decide)
  exact ⟨h.1, h.2 3⟩

theorem zbytes_apply (n : Nat) : ∀ (mem : Nat → Nat) (pos i : Nat),
    zbytes mem pos n i = if pos ≤ i ∧ i < pos + n then 0 else mem i := by
  induction n with
  | zero =>
    intro mem pos i
    simp only [zbytes]
    rw [if_neg (by omega)]
  | succ m ih =>
    intro mem pos i
    simp only [zbytes]
    rw [ih]
    split_ifs <;> first | rfl | omega | simp_all

theorem cleanseWords_apply : ∀ (fuel : Nat) (mem : Nat → Nat) (pos length i : Nat),
    length ≤ 8 * fuel →
    cleanseWords mem fuel pos length i = if pos ≤ i ∧ i < pos + length then 0 else mem i := by
  intro fuel
  induction fuel with
  | zero =>
    intro mem pos length i h
    have : length = 0 := by omega
    subst this
    simp only [cleanseWords]
    rw [if_neg (by omega)]
  | succ f ih =>
    intro mem pos length i h
    simp only [cleanseWords]
    by_cases h8 : length ≥ 8
    · rw [if_pos h8, ih _ _ _ _ (by omega)]
      rw [zbytes_apply]
      split_ifs <;> first | rfl | omega
    · rw [if_neg h8, zbytes_apply]

theorem cleanse_apply (mem : Nat → Nat) (start stop i : Nat) (h : start ≤ stop) :
    cleanse mem start stop i = if start ≤ i ∧ i < stop then 0 else mem i := by
  simp only [cleanse]
  by_cases hb : start % 8 ≠ 0
  · rw [if_pos hb]
    rw [cleanseWords_apply _ _ _ _ _ (by omega)]
    rw [zbytes_apply]
    split_ifs <;> first | rfl | omega
  · rw [if_neg hb]
    rw [cleanseWords_apply _ _ _ _ _ (by omega)]
    split_ifs <;> first | rfl | omega

/-- C6: reallocate with equal rounded unit counts (both small) keeps the
address, returns true with `addr_changed = false`, leaves the allocator
state untouched, and its only memory effect — when `clean` and the byte
count grew — is `cleanse addr old_nbytes new_nbytes`, which zeroes exactly
the bytes `[old_nbytes, new_nbytes)` of the block. -/
theorem C6_realloc_same_units (s : St) (a : Addr) (oldN newN : Nat) (clean : Bool)
    (hu : bytesToUnits oldN = bytesToUnits newN) (hsmall : bytesToUnits newN < maxDataUnits) :
    _reallocate s (some a) oldN newN clean =
      Except.ok (⟨true, false, some a⟩, s,
        if clean ∧ oldN < newN then [Eff.cleanseE a oldN newN] else []) ∧
    (∀ (mem : Nat → Nat) (i : Nat), oldN ≤ newN →
      cleanse mem oldN newN i = if oldN ≤ i ∧ i < newN then 0 else mem i) := by
  constructor
  · by_cases he : oldN = newN
    · subst he
      unfold _reallocate
      rw [if_pos rfl, if_neg (show ¬ (clean = true ∧ oldN < oldN) from fun h =>
        absurd h.2 (lt_irrefl _))]
    · have hz : ¬ (oldN = 0 ∧ newN = 0) := by
        intro h
        exact he (h.1.trans h.2.symm)
      unfold _reallocate
      rw [if_neg he]
      show (if oldN = 0 ∧ newN = 0 then _ else _) = _
      rw [if_neg hz, if_pos hu.symm]
  · intro mem i hle
    exact cleanse_apply mem oldN newN i hle

/-- C6 witness: growing a block from 17 to 30 bytes (both 2 units) with
`clean = true` in a concrete state. -/
theorem C6_realloc_same_units_witness :
    (_reallocate stC3 (some (1, 64)) 17 30 true =
      Except.ok (⟨true, false, some (1, 64)⟩, stC3, [Eff.cleanseE (1, 64) 17 30]) ∧
      cleanse (fun _ => 7) 17 30 20 = 0 ∧ cleanse (fun _ => 7) 17 30 5 = 7) := by
  have h := C6_realloc_same_units stC3 (1, 64) 17 30 true (by decide) (by decide)
  refine ⟨?_, ?_, ?_⟩
  · have := h.1
    simpa using this
  · rw [h.2 (fun _ => 7) 20 (by omega)]
    decide
  · rw [h.2 (fun _ => 7) 5 (by omega)]
    decide

theorem lookupPage_length (s : St) (p : Nat) (r : PageRec) (hw : WfSt s)
    (h : lookupPage s p = some r) : r.bitmap.length = unitsPerPage := by
  unfold lookupPage at h
  cases hf : s.pages.find? (fun e => e.1 == p) with
  | none => rw [hf] at h; simp at h
  | some e =>
    rw [hf] at h
    obtain rfl : e.2 = r := by simpa using h
    exact hw e (List.mem_of_find?_eq_some hf)

theorem wf_updatePage (s : St) (p : Nat) (r : PageRec) (hw : WfSt s)
    (hr : r.bitmap.length = unitsPerPage) : WfSt (updatePage s p r) := by
  intro e he
  simp only [updatePage, List.mem_map] at he
  obtain ⟨e0, he0, hfe⟩ := he
  by_cases hcase : e0.1 = p
  · rw [if_pos hcase] at hfe
    subst hfe
    exact hr
  · rw [if_neg hcase] at hfe
    subst hfe
    exact hw e0 he0

theorem wf_sbSet (s : St) (k : Nat) (v : Option Nat) (hw : WfSt s) : WfSt (sbSet s k v) :=
  fun e he => hw e he

theorem wf_delete_from_list (s : St) (p : Nat) (s1 : St) (hw : WfSt s)
    (h : delete_from_list s p = Except.ok s1) : WfSt s1 := by
  unfold delete_from_list at h
  split at h
  · exact absurd h (by simp)
  case _ rec hl =>
    split at h
    · exact absurd h (by simp)
    case _ slot hll =>
      split at h
      · obtain rfl : sbSet s slot none = s1 := by injection h
        exact wf_sbSet _ _ _ hw
      · set s1a := if sbGet s slot = some p then sbSet s slot (some rec.next) else s with hs1a
        have hw1 : WfSt s1a := by
          rw [hs1a]
          split
          · exact wf_sbSet _ _ _ hw
          · exact hw
        dsimp only [] at h
        split at h
        · exact absurd h (by simp)
        case _ nrec hn =>
          split at h
          · exact absurd h (by simp)
          case _ prec hp =>
            have hw2 : WfSt (updatePage s1a rec.next { nrec with prev := rec.prev }) :=
              wf_updatePage _ _ _ hw1 (lookupPage_length s1a rec.next nrec hw1 hn)
            obtain rfl : updatePage (updatePage s1a rec.next { nrec with prev := rec.prev })
                rec.prev { prec with next := rec.next } = s1 := by injection h
            exact wf_updatePage _ _ _ hw2 (lookupPage_length _ rec.prev prec hw2 hp)

theorem ffbLoop_range (bm : List Bool) (bs : Nat) :
    ∀ (fuel offset r : Nat), ffbLoop bm bs offset fuel = some r →
      r = 0 ∨ (offset ≤ r ∧ r < bm.length) := by
  intro fuel
  induction fuel with
  | zero => intro o r h; exact absurd h (by simp [ffbLoop])
  | succ n ih =>
    intro o r h
    simp only [ffbLoop] at h
    by_cases ho : o < bm.length
    · rw [if_pos ho] at h
      by_cases hf : count_zero_bits bm o bs ≥ bs
      · rw [if_pos hf] at h
        obtain rfl : o = r := by injection h
        exact Or.inr ⟨le_rfl, ho⟩
      · rw [if_neg hf] at h
        rcases ih _ _ h with h1 | h1
        · exact Or.inl h1
        · exact Or.inr ⟨by omega, h1.2⟩
    · rw [if_neg ho] at h
      obtain rfl : (0 : Nat) = r := by injection h
      exact Or.inl rfl

theorem wf_find_available_page (s : St) (u : Nat) (p : Nat) (s1 : St) (hw : WfSt s)
    (h : find_available_page s u = Except.ok (some p, s1)) : WfSt s1 := by
  unfold find_available_page at h
  split at h
  · simp at h
  case _ p0 hscan =>
    split at h
    · exact absurd h (by simp)
    case _ s1a hdel =>
      simp only [Except.ok.injEq, Prod.mk.injEq, Option.some.injEq] at h
      obtain ⟨h1, h2⟩ := h
      exact h2 ▸ wf_delete_from_list s p0 s1a hw hdel

theorem bm_allocate_small_addr (s : St) (u : Nat) (clean : Bool) (a : Addr) (s1 : St)
    (e : List Eff) (hw : WfSt s)
    (h : bm_allocate s u clean = Except.ok (some a, s1, e)) :
    ∃ off, a.2 = off * UNIT_SIZE ∧ headerUnits ≤ off ∧ off < unitsPerPage := by
  unfold bm_allocate at h
  split at h
  · exact absurd h (by simp)
  case _ p s1a hfavp =>
    -- a page was found in the superblock
    have hw1 : WfSt s1a := wf_find_available_page s u p s1a hw hfavp
    split at h
    · exact absurd h (by simp)
    case _ rec hrec =>
      have hlen : rec.bitmap.length = unitsPerPage := lookupPage_length s1a p rec hw1 hrec
      split at h
      · exact absurd h (by simp)
      · exact absurd h (by simp)
      case _ offset hoff hffb =>
        have hrange := ffbLoop_range rec.bitmap u (rec.bitmap.length + 1) headerUnits offset hffb
        dsimp only [] at h
        split at h
        · exact absurd h (by simp)
        case _ s3 hadd =>
          unfold bmFinish at h
          simp only [Except.ok.injEq, Prod.mk.injEq, Option.some.injEq] at h
          obtain ⟨rfl, -⟩ := h
          refine ⟨offset, rfl, ?_, ?_⟩
          · rcases hrange with h1 | h1
            · exact absurd h1 hoff
            · rw [hlen] at h1; omega
          · rcases hrange with h1 | h1
            · exact absurd h1 hoff
            · rw [hlen] at h1; omega
  case _ s1a hfavp =>
    -- fresh page path
    dsimp only [] at h
    split at h
    · exact absurd h (by simp)
    case _ s3 hadd =>
      unfold bmFinish at h
      simp only [Except.ok.injEq, Prod.mk.injEq, Option.some.injEq] at h
      obtain ⟨rfl, -⟩ := h
      exact ⟨headerUnits, rfl, le_rfl, by decide⟩

/-- C8: small/large address classification.  Every address handed out by
the bitmap path sits at a unit offset in `[header_units, units_per_page)`
inside its page and is therefore never page aligned; every large-path
address is page aligned (offset 0 in a fresh mapping); and the
page-alignment test of `_release` routes page-aligned addresses to the
direct `munmap` and all others to `bm_release`. -/
theorem C8_address_classification :
    (∀ (s : St) (u : Nat) (clean : Bool) (a : Addr) (s1 : St) (e : List Eff), WfSt s →
      bm_allocate s u clean = Except.ok (some a, s1, e) →
      ∃ off, a.2 = off * UNIT_SIZE ∧ headerUnits ≤ off ∧ off < unitsPerPage ∧ a.2 ≠ 0) ∧
    (∀ (s : St) (n : Nat) (clean : Bool) (a : Addr) (s1 : St) (e : List Eff),
      maxDataUnits ≤ bytesToUnits n →
      _allocate s n clean = Except.ok (some a, s1, e) → a.2 = 0) ∧
    (∀ (s : St) (a : Addr) (n : Nat), n ≠ 0 → a.2 = 0 →
      _release s (some a) n =
        Except.ok (none, { s with blocksAllocated := s.blocksAllocated - 1 },
          [Eff.munmapE a (alignToPage n)])) ∧
    (∀ (s : St) (a : Addr) (n : Nat), n ≠ 0 → a.2 ≠ 0 →
      _release s (some a) n =
        (match bm_release s a.1 (a.2 / UNIT_SIZE) (bytesToUnits n) with
         | Except.error f => Except.error f
         | Except.ok (_, s1, effs) => Except.ok (none, s1, effs))) := by
  refine ⟨?_, ?_, ?_, ?_⟩
  · intro s u clean a s1 e hw h
    obtain ⟨off, ha, h1, h2⟩ := bm_allocate_small_addr s u clean a s1 e hw h
    refine ⟨off, ha, h1, h2, ?_⟩
    have h4 : headerUnits = 4 := by decide
    have h16 : UNIT_SIZE = 16 := by decide
    rw [h4] at h1
    rw [ha, h16]
    omega
  · intro s n clean a s1 e hl h
    unfold _allocate at h
    by_cases hn : n = 0
    · rw [if_pos hn] at h
      simp at h
    · rw [if_neg hn, if_neg (by omega)] at h
      simp only [Except.ok.injEq, Prod.mk.injEq, Option.some.injEq] at h
      obtain ⟨rfl, -⟩ := h
      rfl
  · intro s a n hn ha
    unfold _release
    dsimp only []
    rw [if_neg hn, if_pos ha]
  · intro s a n hn ha
    unfold _release
    dsimp only []
    rw [if_neg hn, if_neg ha]

/-- C8 witness: the first bitmap allocation returns unit offset 4 (byte 64,
not page aligned), a large allocation returns offset 0, and `_release`
dispatches both correctly. -/
theorem C8_address_classification_witness :
    (∃ off, ((1 : Nat), (64 : Nat)).2 = off * UNIT_SIZE ∧ headerUnits ≤ off ∧
      off < unitsPerPage ∧ ((1 : Nat), (64 : Nat)).2 ≠ 0) ∧
    ((100 : Nat), (0 : Nat)).2 = 0 ∧
    _release st0 (some (100, 0)) 8192 =
      Except.ok (none, { st0 with blocksAllocated := st0.blocksAllocated - 1 },
        [Eff.munmapE (100, 0) (alignToPage 8192)]) := by
  refine ⟨?_, rfl, ?_⟩
  · exact C8_address_classification.1 st0 1 false (1, 64)
      ⟨[(1, ⟨some 251, 1, 1, List.replicate 5 true ++ List.replicate 251 false⟩)],
        sbE.set 251 (some 1), 2, 1, 1⟩ []
      (fun e he => by simp [st0] at he) (by decide)
  · exact C8_address_classification.2.2.1 st0 (100, 0) 8192 (by decide) rfl

theorem length_overwrite : ∀ (l : List Nat) (p : Nat) (src : List Nat),
    (overwrite l p src).length = l.length := by
  intro l
  induction l with
  | nil => intro p src; simp [overwrite]
  | cons b rest ih =>
    intro p src
    cases src with
    | nil => simp [overwrite]
    | cons v srest =>
      cases p with
      | zero => simp [overwrite, ih]
      | succ q => simp [overwrite, ih]

theorem getD_overwrite : ∀ (l : List Nat) (p : Nat) (src : List Nat) (j : Nat),
    (overwrite l p src).getD j 0 =
      if p ≤ j ∧ j < p + src.length ∧ j < l.length then src.getD (j - p) 0 else l.getD j 0 := by
  intro l
  induction l with
  | nil =>
    intro p src j
    rw [if_neg (by simp)]
    simp [overwrite]
  | cons b rest ih =>
    intro p src j
    cases src with
    | nil =>
      rw [if_neg (by rintro ⟨h1, h2, -⟩; simp only [List.length_nil] at h2; omega)]
      simp [overwrite]
    | cons v srest =>
      cases p with
      | zero =>
        cases j with
        | zero => simp [overwrite]
        | succ k =>
          have hstep : (overwrite (b :: rest) 0 (v :: srest)).getD (k + 1) 0
              = (overwrite rest 0 srest).getD k 0 := by
            simp [overwrite]
          rw [hstep, ih]
          by_cases hA : k < srest.length ∧ k < rest.length
          · rw [if_pos ⟨Nat.zero_le _, by omega, hA.2⟩,
              if_pos ⟨Nat.zero_le _, by simp only [List.length_cons]; omega,
                by simp only [List.length_cons]; omega⟩]
            simp
          · rw [if_neg (fun hcon => hA ⟨by omega, hcon.2.2⟩),
              if_neg (fun hcon => hA ⟨by
                have := hcon.2.1
                simp only [List.length_cons] at this
                omega,
                by
                have := hcon.2.2
                simp only [List.length_cons] at this
                omega⟩)]
            simp
      | succ q =>
        cases j with
        | zero =>
          rw [if_neg (by omega)]
          simp [overwrite]
        | succ k =>
          have hstep : (overwrite (b :: rest) (q + 1) (v :: srest)).getD (k + 1) 0
              = (overwrite rest q (v :: srest)).getD k 0 := by
            simp [overwrite]
          rw [hstep, ih]
          by_cases hA : q ≤ k ∧ k < q + (v :: srest).length ∧ k < rest.length
          · rw [if_pos hA, if_pos ⟨by omega, by
              simp only [List.length_cons] at *
              omega, by
              simp only [List.length_cons]
              omega⟩]
            rw [show k + 1 - (q + 1) = k - q by omega]
          · rw [if_neg hA, if_neg (fun hcon => hA ⟨by omega, by
              have := hcon.2.1
              simp only [List.length_cons] at *
              omega, by
              have := hcon.2.2
              simp only [List.length_cons] at this
              omega⟩)]
            simp

theorem length_zeroRange : ∀ (l : List Nat) (p c : Nat),
    (zeroRange l p c).length = l.length := by
  intro l
  induction l with
  | nil => intro p c; simp [zeroRange]
  | cons b rest ih =>
    intro p c
    cases c with
    | zero => simp [zeroRange]
    | succ c0 =>
      cases p with
      | zero => simp [zeroRange, ih]
      | succ q => simp [zeroRange, ih]

theorem getD_zeroRange : ∀ (l : List Nat) (p c j : Nat),
    (zeroRange l p c).getD j 0 =
      if p ≤ j ∧ j < p + c ∧ j < l.length then 0 else l.getD j 0 := by
  intro l
  induction l with
  | nil =>
    intro p c j
    rw [if_neg (by simp)]
    simp [zeroRange]
  | cons b rest ih =>
    intro p c j
    cases c with
    | zero =>
      rw [if_neg (by omega)]
      simp [zeroRange]
    | succ c0 =>
      cases p with
      | zero =>
        cases j with
        | zero => simp [zeroRange]
        | succ k =>
          have hstep : (zeroRange (b :: rest) 0 (c0 + 1)).getD (k + 1) 0
              = (zeroRange rest 0 c0).getD k 0 := by
            simp [zeroRange]
          rw [hstep, ih]
          by_cases hA : k < c0 ∧ k < rest.length
          · rw [if_pos ⟨Nat.zero_le _, by omega, hA.2⟩,
              if_pos ⟨Nat.zero_le _, by omega, by simp only [List.length_cons]; omega⟩]
          · rw [if_neg (fun hcon => hA ⟨by omega, hcon.2.2⟩),
              if_neg (fun hcon => hA ⟨by omega, by
                have := hcon.2.2
                simp only [List.length_cons] at this
                omega⟩)]
            simp
      | succ q =>
        cases j with
        | zero =>
          rw [if_neg (by omega)]
          simp [zeroRange]
        | succ k =>
          have hstep : (zeroRange (b :: rest) (q + 1) (c0 + 1)).getD (k + 1) 0
              = (zeroRange rest q (c0 + 1)).getD k 0 := by
            simp [zeroRange]
          rw [hstep, ih]
          by_cases hA : q ≤ k ∧ k < q + (c0 + 1) ∧ k < rest.length
          · rw [if_pos hA, if_pos ⟨by omega, by omega, by
              simp only [List.length_cons]
              omega⟩]
          · rw [if_neg hA, if_neg (fun hcon => hA ⟨by omega, by omega, by
              have := hcon.2.2
              simp only [List.length_cons] at this
              omega⟩)]
            simp

theorem length_dbgAllocRegion (n : Nat) (g : List Nat) (hg : g.length = n) :
    (dbgAllocRegion n g).length = infoSize + BUBBLEWRAP + n + BUBBLEWRAP := by
  simp [dbgAllocRegion, hg]
  omega

/-- C9: the debug adaptor's `_reallocate` copies `old_nbytes` bytes into
the fresh region regardless of the new size, so with `0 < new < old` every
old-block byte at index `i` in `[new, min(old, new + BUBBLEWRAP))` lands in
the new block's upper red zone; releasing the new address with `new_nbytes`
then finds a damaged upper zone and terminates whenever such a byte is not
`0xFF`. -/
theorem C9_debug_realloc_redzone (oldN newN : Nat) (obc g : List Nat) (clean : Bool)
    (h0 : 0 < newN) (h1 : newN < oldN) (ho : obc.length = oldN) (hg : g.length = newN)
    (i : Nat) (hi1 : newN ≤ i) (hi2 : i < oldN) (hi3 : i < newN + BUBBLEWRAP) :
    (dbg_reallocate_region oldN newN obc g clean).getD (infoSize + BUBBLEWRAP + i) 0
      = obc.getD i 0 ∧
    (obc.getD i 0 ≠ 255 →
      check_region_exits (dbg_reallocate_region oldN newN obc g clean) newN = true) := by
  have hB : BUBBLEWRAP = 32 := rfl
  have hI : infoSize = 16 := rfl
  have hrl : (dbgAllocRegion newN g).length = infoSize + BUBBLEWRAP + newN + BUBBLEWRAP :=
    length_dbgAllocRegion newN g hg
  have htl : (obc.take oldN).length = oldN := by
    simp [List.length_take, ho]
  have hstep : (overwrite (dbgAllocRegion newN g) (infoSize + BUBBLEWRAP)
      (obc.take oldN)).getD (infoSize + BUBBLEWRAP + i) 0 = obc.getD i 0 := by
    rw [getD_overwrite]
    rw [if_pos ⟨by omega, by rw [htl]; omega, by rw [hrl]; omega⟩]
    rw [show infoSize + BUBBLEWRAP + i - (infoSize + BUBBLEWRAP) = i by omega]
    simp [List.getD_eq_getElem?_getD, List.getElem?_take, hi2]
  have hv : (dbg_reallocate_region oldN newN obc g clean).getD (infoSize + BUBBLEWRAP + i) 0
      = obc.getD i 0 := by
    unfold dbg_reallocate_region
    dsimp only []
    split
    · rw [getD_zeroRange]
      rw [if_neg (by rintro ⟨hc1, -, -⟩; omega)]
      exact hstep
    · exact hstep
  refine ⟨hv, fun hne => ?_⟩
  have hdmg : 0 < damaged_upper (dbg_reallocate_region oldN newN obc g clean) newN := by
    unfold damaged_upper
    refine List.countP_pos_iff.mpr
      ⟨(dbg_reallocate_region oldN newN obc g clean).getD
        (infoSize + BUBBLEWRAP + newN + (i - newN)) 0, ?_, ?_⟩
    · exact List.mem_map.mpr ⟨i - newN, List.mem_range.mpr (by omega), rfl⟩
    · rw [show infoSize + BUBBLEWRAP + newN + (i - newN) = infoSize + BUBBLEWRAP + i by omega]
      rw [hv]
      simpa using hne
  unfold check_region_exits
  have : damaged_upper (dbg_reallocate_region oldN newN obc g clean) newN ≠ 0 := by omega
  simp [this]

/-- C9 witness: shrinking a 3-byte block containing bytes `[9, 9, 9]` to 1
byte copies bytes 1 and 2 into the upper red zone; releasing the new
address reports the corruption. -/
theorem C9_debug_realloc_redzone_witness :
    (dbg_reallocate_region 3 1 [9, 9, 9] [7] false).getD (infoSize + BUBBLEWRAP + 1) 0 = 9 ∧
    check_region_exits (dbg_reallocate_region 3 1 [9, 9, 9] [7] false) 1 = true := by
  have h := C9_debug_realloc_redzone 3 1 [9, 9, 9] [7] false (by decide) (by decide)
    (by decide) (by decide) 1 (by decide) (by decide) (by decide)
  exact ⟨h.1, h.2 (by decide)⟩

end Pussy
